import Mathlib

/-!
Verification of the SIGMA automation core (backend/automation) against its
natural-language specification.  The Python source is shallowly embedded:
pure functions become Lean functions over `ℚ`/`ℕ`/`List`, stateful methods
become explicit state-passing functions, and fallible code returns
`Option`/`Except`.
-/

namespace SIGMA

/-! ## Error recovery: `RetryPolicy` (error_recovery.py)

`BackoffStrategy` and `ErrorCategory` mirror the two enums.  Delays are
Python floats; they are embedded as `ℚ` (every value the code computes from
rational inputs is rational). -/

inductive BackoffStrategy where
  | constant | linear | exponential | fibonacci | jitter
deriving DecidableEq, Repr

inductive ErrorCategory where
  | network | timeout | rateLimit | auth | resource | validation | unknown
deriving DecidableEq, Repr

/-- The loop `for _ in range(k): a, b = b, a + b` of `RetryPolicy._fibonacci`. -/
def fibLoop : ℕ → ℕ × ℕ → ℕ × ℕ
  | 0, ab => ab
  | k + 1, (a, b) => fibLoop k (b, a + b)

/-- `RetryPolicy._fibonacci`: `1` for `n ≤ 2`, else the loop result. -/
def fibCode (n : ℕ) : ℕ :=
  if n ≤ 2 then 1 else (fibLoop (n - 2) (1, 1)).2

/-- Reference Fibonacci sequence with `F 0 = F 1 = 1`. -/
def fibRef : ℕ → ℕ
  | 0 => 1
  | 1 => 1
  | n + 2 => fibRef n + fibRef (n + 1)

/-- The default `retry_on_errors` list of `RetryPolicy.__init__`. -/
def defaultRetryOn : List ErrorCategory := [.network, .timeout, .rateLimit]

/-- `RetryPolicy` (the `fallback_action` is represented externally: it only
changes what an exhausted call returns, never the attempt/delay/breaker
behaviour the claims are about). -/
structure RetryPolicy where
  maxAttempts : ℕ
  backoff : BackoffStrategy
  baseDelay : ℚ
  maxDelay : ℚ
  retryOn : List ErrorCategory
deriving DecidableEq, Repr

/-- `RetryPolicy.calculate_delay`.  `attempt` is 1-indexed as in the source.
The jitter branch draws `random.uniform(0, exp_delay * 0.1)`; the draw is an
explicit argument `j` so every admissible draw can be quantified over. -/
def calculateDelay (p : RetryPolicy) (attempt : ℕ) (j : ℚ) : ℚ :=
  let delay :=
    match p.backoff with
    | .constant => p.baseDelay
    | .linear => p.baseDelay * attempt
    | .exponential => p.baseDelay * 2 ^ (attempt - 1)
    | .fibonacci => (fibCode attempt : ℚ) * p.baseDelay
    | .jitter => p.baseDelay * 2 ^ (attempt - 1) + j
  min delay p.maxDelay

/-- A jitter draw is admissible for attempt `a` when it lies in
`[0, 0.1 · base · 2^(a-1)]`, the range of `random.uniform(0, exp_delay * 0.1)`. -/
def admissibleJitter (p : RetryPolicy) (attempt : ℕ) (j : ℚ) : Prop :=
  0 ≤ j ∧ j ≤ p.baseDelay * 2 ^ (attempt - 1) * (1 / 10)

/-! ## Circuit breaker (error_recovery.py, `ErrorRecovery`)

The per-context breaker dict entry `{"state", "failures", "opened_at",
"threshold", "timeout"}` becomes a structure; time is `ℚ` (absolute seconds,
`datetime.utcnow()` differences become subtraction).  `opened` embeds the
string state `"open"`. -/

inductive BreakerState where
  | closed | opened | halfOpen
deriving DecidableEq, Repr

structure Breaker where
  state : BreakerState
  failures : ℕ
  openedAt : Option ℚ
  threshold : ℕ
  timeout : ℚ
deriving DecidableEq, Repr

/-- The entry `_is_circuit_open` creates for an unknown context. -/
def freshBreaker : Breaker :=
  { state := .closed, failures := 0, openedAt := none, threshold := 5, timeout := 60 }

/-- `ErrorRecovery._is_circuit_open` on an existing entry: returns the bool and
the (possibly half-opened) breaker. -/
def isCircuitOpen (b : Breaker) (now : ℚ) : Bool × Breaker :=
  if b.state = .opened then
    match b.openedAt with
    | some t =>
        if now - t > b.timeout then (false, { b with state := .halfOpen })
        else (true, b)
    | none => (true, b)
  else (false, b)

/-- `ErrorRecovery._trip_circuit_breaker` on an existing entry: increment
`failures`, and open (recording `opened_at`) when the incremented count has
reached the threshold. -/
def tripBreaker (b : Breaker) (now : ℚ) : Breaker :=
  if b.threshold ≤ b.failures + 1 then
    { b with failures := b.failures + 1, state := .opened, openedAt := some now }
  else { b with failures := b.failures + 1 }

/-- `ErrorRecovery._record_success` on an existing entry. -/
def recordSuccess (b : Breaker) : Breaker :=
  { b with failures := 0, state := .closed }

/-- Outcome of one `execute_with_retry` call as seen by the breaker. -/
inductive CallResult where
  | fastFail   -- breaker open: raised before the attempt loop, operation not invoked
  | succeeded  -- some attempt succeeded
  | exhausted  -- the attempt loop ended in failure (retries exhausted or non-retryable)
deriving DecidableEq, Repr

/-- One `execute_with_retry` call at absolute time `now`, abstracted by whether
the attempt loop ends in success (`s = true`) or exhaustion (`s = false`):
breaker check first, then `_record_success` on success or
`_trip_circuit_breaker` on exhaustion.  `s` is consulted only when the breaker
check passes, mirroring the fast-fail `raise` before the loop. -/
def callOnce (b : Breaker) (now : ℚ) (s : Bool) : CallResult × Breaker :=
  let r := isCircuitOpen b now
  if r.1 then (.fastFail, r.2)
  else if s then (.succeeded, recordSuccess r.2)
  else (.exhausted, tripBreaker r.2 now)

/-- Breaker states reachable, for one context, from the lazily created fresh
entry by `execute_with_retry` calls. -/
inductive Reachable : Breaker → Prop where
  | fresh : Reachable freshBreaker
  | step (b : Breaker) (now : ℚ) (s : Bool) : Reachable b → Reachable (callOnce b now s).2

/-- Five consecutive retry-exhaustions for one fresh context, all at time 0. -/
def exhaustFive : Breaker :=
  (callOnce (callOnce (callOnce (callOnce (callOnce freshBreaker 0 false).2
    0 false).2 0 false).2 0 false).2 0 false).2

/-! ## Workflow engine (workflow_engine.py)

Steps carry exactly the fields the control flow reads.  The injected
`agent_executor` is abstracted by an outcome oracle `outcome : String → Bool`
giving the net result of `_execute_step`'s retry loop for each step id (the
attempt-level loop itself is modelled separately below for C6). -/

inductive TaskStatus where
  | pending | running | success | failed | skipped
deriving DecidableEq, Repr

inductive WorkflowStatus where
  | pending | running | success | failed | paused | cancelled
deriving DecidableEq, Repr

structure WStep where
  stepId : String
  dependsOn : List String
  status : TaskStatus
  error : Option String
deriving DecidableEq, Repr

structure Workflow where
  parallel : Bool
  status : WorkflowStatus
  steps : List WStep
deriving DecidableEq, Repr

/-- A fresh step as `WorkflowStep.__init__` leaves it. -/
def mkStep (id : String) (deps : List String) : WStep :=
  { stepId := id, dependsOn := deps, status := .pending, error := none }

def isTerminal (s : TaskStatus) : Bool :=
  s = .success || s = .failed || s = .skipped

/-- `WorkflowEngine._check_condition`: the source always returns `True`
(both the no-condition case and the stubbed evaluation). -/
def checkCondition (_st : WStep) : Bool := true

/-- Net effect of `_execute_step` on a step (status and result recording),
with `outcome id` telling whether the retry loop eventually succeeds. -/
def execStepNet (outcome : String → Bool) (st : WStep) : WStep :=
  if outcome st.stepId then { st with status := .success }
  else { st with status := .failed, error := some "execution error" }

/-- Ids in the `completed` set at the top of a `_execute_sequential`
iteration: exactly the steps already in a terminal status. -/
def terminalIds (steps : List WStep) : List String :=
  (steps.filter (fun st => isTerminal st.status)).map (fun st => st.stepId)

/-- One-to-one embedding of the `while` loop of
`WorkflowEngine._execute_sequential`, with fuel (the source loop terminates
because `completed` grows every iteration; `steps.length + 1` fuel is enough
for the workflows considered in the claims). -/
def seqLoop (outcome : String → Bool) : ℕ → List WStep → List WStep
  | 0, steps => steps
  | fuel + 1, steps =>
      if steps.any (fun st => st.status = .pending) then
        let tids := terminalIds steps
        let ready := steps.filter
          (fun st => st.status = .pending && st.dependsOn.all (fun d => tids.contains d))
        if ready.isEmpty then
          steps.map (fun st =>
            if st.status = .pending then
              { st with status := .skipped, error := some "Dependencies not met" }
            else st)
        else
          seqLoop outcome fuel (steps.map (fun st =>
            if ready.any (fun r => r.stepId = st.stepId) then
              (if checkCondition st then execStepNet outcome st
               else { st with status := .skipped, error := some "Condition not met" })
            else st))
      else steps

def execSequential (outcome : String → Bool) (steps : List WStep) : List WStep :=
  seqLoop outcome (steps.length + 1) steps

/-- `get_level` of `WorkflowEngine._compute_dependency_levels`:
`workflow.steps[step_id]` raises `KeyError` on a missing id (the `.error`
case); fuel models the recursion depth (a genuine cycle exhausts it, as the
unbounded Python recursion would raise `RecursionError`). -/
def getLevel (steps : List WStep) : ℕ → String → Except String ℕ
  | 0, _ => .error "maximum recursion depth exceeded"
  | fuel + 1, id =>
      match steps.find? (fun st => st.stepId = id) with
      | none => .error id
      | some st =>
          if st.dependsOn.isEmpty then .ok 0
          else do
            let ls ← st.dependsOn.mapM (getLevel steps fuel)
            pure ((ls.foldl max 0) + 1)

/-- `WorkflowEngine._compute_dependency_levels`, as the list of levels per
step (grouping is irrelevant to the claims; an error anywhere propagates as
the raised `KeyError`/`RecursionError`). -/
def computeLevels (steps : List WStep) : Except String (List ℕ) :=
  steps.mapM (fun st => getLevel steps (steps.length + 1) st.stepId)

/-- `WorkflowEngine._execute_parallel`: level computation first (where a
missing dependency id raises), then every step runs grouped by level.  Steps
of one level run via `asyncio.gather`; each step's outcome is independent, so
the per-level execution is a map (condition/skip rules as in the source). -/
def execParallel (outcome : String → Bool) (steps : List WStep) :
    Except String (List WStep) := do
  let _ ← computeLevels steps
  pure (steps.map (fun st =>
    if checkCondition st then execStepNet outcome st
    else { st with status := .skipped, error := some "Condition not met" }))

/-- Final-status determination at the end of `execute_workflow`:
all-success → success; any failed → failed; otherwise partial success. -/
def finalStatusOf (steps : List WStep) : WorkflowStatus :=
  if steps.all (fun st => st.status = .success) then .success
  else if steps.any (fun st => st.status = .failed) then .failed
  else .success

/-- `WorkflowEngine.execute_workflow`: run the parallel or sequential body
under `try`; an escaped exception marks the workflow failed (steps as they
were when it was raised — for the level-computation `KeyError` no step has
run yet); otherwise the final status overwrites whatever status the workflow
had (including paused/cancelled set concurrently). -/
def executeWorkflow (outcome : String → Bool) (w : Workflow) : Workflow :=
  if w.parallel then
    match execParallel outcome w.steps with
    | .ok steps2 => { w with steps := steps2, status := finalStatusOf steps2 }
    | .error _ => { w with status := .failed }
  else
    let steps2 := execSequential outcome w.steps
    { w with steps := steps2, status := finalStatusOf steps2 }

/-- `WorkflowEngine.pause_workflow` on the active workflow. -/
def pauseWorkflow (w : Workflow) : Workflow := { w with status := .paused }

/-- `WorkflowEngine.cancel_workflow` on the active workflow. -/
def cancelWorkflow (w : Workflow) : Workflow := { w with status := .cancelled }


/-! ## Attempt-level models for step execution (C6)

`WorkflowEngine._execute_step` runs its own inline retry loop
(`for attempt in range(step.retry_count)`, uncapped delay `2 ** attempt`,
no error categorisation, no circuit breaker).  `execute_with_retry` runs
1-indexed attempts with `calculate_delay`, a retryable-category check and the
breaker.  Both are abstracted over a per-attempt success oracle and (for the
recovery loop) a per-attempt error-category oracle. -/

/-- The loop body of `_execute_step`, attempts 0-indexed; returns the final
step status, the `attempts` counter and the slept delays.  The first argument
of the recursion is the remaining iteration count `rc - i`. -/
def stepLoopCode (att : ℕ → Bool) (rc : ℕ) : ℕ → ℕ → TaskStatus × ℕ × List ℚ
  | 0, i => (.running, i, [])
  | r + 1, i =>
      if att i then (.success, i + 1, [])
      else if i < rc - 1 then
        let x := stepLoopCode att rc r (i + 1)
        (x.1, x.2.1, ((2 : ℚ) ^ i) :: x.2.2)
      else (.failed, i + 1, [])

/-- `_execute_step`'s retry behaviour for `retry_count = rc` (for `rc = 0`
the loop body never runs and the step stays `running`). -/
def stepRunCode (att : ℕ → Bool) (rc : ℕ) : TaskStatus × ℕ × List ℚ :=
  stepLoopCode att rc rc 0

/-- The attempt loop of `ErrorRecovery.execute_with_retry`, attempts
1-indexed; on failure: non-retryable category breaks, reaching
`max_attempts` breaks, otherwise sleep `calculate_delay(attempt)` and
retry.  Returns (succeeded, attempts made, slept delays). -/
def retryLoop (att : ℕ → Bool) (cat : ℕ → ErrorCategory) (p : RetryPolicy) :
    ℕ → ℕ → Bool × ℕ × List ℚ
  | 0, a => (false, a - 1, [])
  | r + 1, a =>
      if att a then (true, a, [])
      else if ¬ (cat a ∈ p.retryOn) then (false, a, [])
      else if p.maxAttempts ≤ a then (false, a, [])
      else
        let x := retryLoop att cat p r (a + 1)
        (x.1, x.2.1, calculateDelay p a 0 :: x.2.2)

def retryRun (att : ℕ → Bool) (cat : ℕ → ErrorCategory) (p : RetryPolicy) :
    Bool × ℕ × List ℚ :=
  retryLoop att cat p p.maxAttempts 1

/-- The policy C6 claims `_execute_step` is equivalent to:
`{max_attempts: rc, backoff: exponential, base_delay: 1}` with the
constructor defaults `max_delay = 60` and the default retryable set. -/
def stepPolicy (rc : ℕ) : RetryPolicy :=
  ⟨rc, .exponential, 1, 60, defaultRetryOn⟩

/-- Number of operation invocations one `execute_with_retry` call makes:
zero when the breaker check fast-fails, else the attempt-loop count. -/
def executeWithRetryAttempts (att : ℕ → Bool) (cat : ℕ → ErrorCategory)
    (p : RetryPolicy) (b : Breaker) (now : ℚ) : ℕ :=
  if (isCircuitOpen b now).1 then 0 else (retryRun att cat p).2.1

/-! ## Rules engine (rules_engine.py)

For C7 only the action-execution path of `evaluate_all_rules` matters, so a
rule is embedded with the outcome of `evaluate_rule` (`satisfied`: the AND of
its conditions under the merged context) as a field; the injected
`action_executor` is abstracted by a failure oracle
`fails : ruleId → action → Bool`. -/

structure RuleM where
  ruleId : String
  enabled : Bool
  priority : ℤ
  satisfied : Bool
  actions : List String
deriving DecidableEq, Repr

/-- Stable ascending insertion, modelling Python's stable
`list.sort(key=lambda r: r.priority)`. -/
def insertByPriority (r : RuleM) : List RuleM → List RuleM
  | [] => [r]
  | x :: xs =>
      if x.priority < r.priority then x :: insertByPriority r xs
      else r :: x :: xs

def sortByPriority : List RuleM → List RuleM
  | [] => []
  | r :: rest => insertByPriority r (sortByPriority rest)

/-- The actions actually invoked for one triggered rule: the
`try: for action in rule.actions: action_executor(action, ...)` block stops
at (and including) the first action whose executor raises — the exception is
caught outside the `for` loop. -/
def invokedActions (fails : String → Bool) : List String → List String
  | [] => []
  | a :: rest => if fails a then [a] else a :: invokedActions fails rest

/-- `RulesEngine.evaluate_all_rules`: enabled rules in ascending priority
order; each satisfied rule is recorded as triggered and its actions run
through `invokedActions` (an action failure is caught per rule, so later
rules still evaluate and fire). -/
def evaluateAllRules (fails : String → String → Bool) (rules : List RuleM) :
    List (String × List String) :=
  (sortByPriority (rules.filter (fun r => r.enabled))).filterMap
    (fun r =>
      if r.satisfied then
        some (r.ruleId, invokedActions (fails r.ruleId) r.actions)
      else none)

/-! ## Task queue (task_scheduler.py, `TaskQueue`)

The heap holds tuples `(priority, counter, task)`; `heapq.heappush` /
`heapq.heappop` are modelled by their documented contract: the heap is a
multiset of entries and `heappop` removes the least entry in tuple
lexicographic order.  Counters are distinct, so comparison never reaches the
task payload. -/

/-- A heap entry `(priority, counter, task)`. -/
abbrev QEntry : Type := ℤ × ℕ × String

structure TaskQueueState where
  queue : List QEntry
  counter : ℕ
deriving DecidableEq, Repr

/-- `TaskQueue.__init__`. -/
def emptyQueue : TaskQueueState := ⟨[], 0⟩

/-- `TaskQueue.push`: insert `(priority, self._counter, task)` and increment
the counter. -/
def qpush (q : TaskQueueState) (p : ℤ) (t : String) : TaskQueueState :=
  { queue := (p, q.counter, t) :: q.queue, counter := q.counter + 1 }

/-- Tuple lexicographic order on `(priority, counter)` — the order `heapq`
compares entries by (counters are distinct so the third component is never
compared). -/
def lexLe (x y : QEntry) : Prop :=
  x.1 < y.1 ∨ (x.1 = y.1 ∧ x.2.1 ≤ y.2.1)

/-- The smaller of two entries in lexicographic order (left-biased). -/
def qbetter (x y : QEntry) : QEntry :=
  if y.1 < x.1 ∨ (y.1 = x.1 ∧ y.2.1 < x.2.1) then y else x

/-- The least entry of the heap (what `heappop` returns), `none` when
empty. -/
def qminEntry : List QEntry → Option QEntry
  | [] => none
  | x :: xs => some (xs.foldl qbetter x)

/-- `TaskQueue.pop`: `None` on an empty queue, else remove and return the
least entry. -/
def qpop (q : TaskQueueState) : Option QEntry × TaskQueueState :=
  match qminEntry q.queue with
  | none => (none, q)
  | some e => (some e, { q with queue := q.queue.erase e })

/-! ## Agent orchestrator (orchestrator.py, `select_best_agent`)

The registry is the list of registered agent names in registration order
(dict key order) plus the `agent_stats` entries `(name, completed + failed)`
in stats-dict insertion order.  `task` is the already lowercased task text
(`task.lower()`); the context is represented by its `preferred_agent` entry
(`none` when the key is absent). -/

structure Orch where
  agents : List String
  stats : List (String × ℕ)
deriving DecidableEq, Repr

/-- `pat in s` on strings: substring containment. -/
def strContains (s pat : String) : Bool :=
  s.data.tails.any (fun t => pat.data.isPrefixOf t)

def kwEmail : List String := ["email", "mail", "send message"]

def kwWeb : List String := ["web", "browser", "search", "scrape", "website"]

def kwSystem : List String :=
  ["file", "folder", "directory", "screenshot", "system", "terminal"]

/-- The keyword fast path of `select_best_agent`: `some r` means one of the
three keyword branches fired and the function returns `r` (which is `None`
when the branch's named agent is not registered); `none` means no keyword
matched and resolution falls through. -/
def keywordRoute (o : Orch) (task : String) : Option (Option String) :=
  if kwEmail.any (fun w => strContains task w) then
    some (if o.agents.contains "email" then some "email" else none)
  else if kwWeb.any (fun w => strContains task w) then
    some (if o.agents.contains "web" then some "web" else none)
  else if kwSystem.any (fun w => strContains task w) then
    some (if o.agents.contains "system" then some "system" else none)
  else none

/-- The load-balancing fallback: `min(agent_loads, key=agent_loads.get)` over
the stats entries of registered agents — the first key with the minimal load
in stats order (`min` replaces only on strictly smaller values). -/
def leastLoaded (o : Orch) : Option String :=
  match o.stats.filter (fun e => o.agents.contains e.1) with
  | [] => none
  | x :: xs =>
      some ((xs.foldl (fun best y => if y.2 < best.2 then y else best) x).1)

/-- `AgentOrchestrator.select_best_agent`. -/
def selectBestAgent (o : Orch) (task : String) (preferred : Option String) :
    Option String :=
  let rest :=
    match keywordRoute o task with
    | some r => r
    | none =>
        if o.agents.isEmpty then none
        else
          match leastLoaded o with
          | some n => some n
          | none => o.agents.head?
  match preferred with
  | some p => if o.agents.contains p then some p else rest
  | none => rest

/-- The keyword classification by itself (first matching category in source
order), used to state the corrected resolution order. -/
inductive AgentCategory where
  | email | web | system
deriving DecidableEq, Repr

def categoryAgent : AgentCategory → String
  | .email => "email"
  | .web => "web"
  | .system => "system"

def matchedCategory (task : String) : Option AgentCategory :=
  if kwEmail.any (fun w => strContains task w) then some .email
  else if kwWeb.any (fun w => strContains task w) then some .web
  else if kwSystem.any (fun w => strContains task w) then some .system
  else none

/-! # Theorems -/

/-! ### Fibonacci helper lemmas -/

theorem fibLoop_ref (k i : ℕ) :
    fibLoop k (fibRef i, fibRef (i + 1)) = (fibRef (i + k), fibRef (i + k + 1)) := by
  induction k generalizing i with
  | zero => simp [fibLoop]
  | succ k ih =>
      have h : fibLoop (k + 1) (fibRef i, fibRef (i + 1))
          = fibLoop k (fibRef (i + 1), fibRef i + fibRef (i + 1)) := rfl
      rw [h]
      have h2 : fibRef i + fibRef (i + 1) = fibRef (i + 2) := rfl
      rw [h2, ih (i + 1)]
      have e1 : i + 1 + k = i + (k + 1) := by omega
      rw [e1]

theorem fibCode_eq_ref (n : ℕ) (h : 1 ≤ n) : fibCode n = fibRef (n - 1) := by
  unfold fibCode
  by_cases h2 : n ≤ 2
  · interval_cases n <;> rfl
  · have h3 : ¬ n ≤ 2 := h2
    simp only [h3, if_false]
    have := fibLoop_ref (n - 2) 0
    simp only [Nat.zero_add] at this
    rw [show ((1 : ℕ), (1 : ℕ)) = (fibRef 0, fibRef 1) from rfl, this]
    have e : n - 2 + 1 = n - 1 := by omega
    rw [e]

theorem fibRef_mono (n : ℕ) : fibRef n ≤ fibRef (n + 1) := by
  cases n with
  | zero => simp [fibRef]
  | succ m =>
      show fibRef (m + 1) ≤ fibRef (m + 2)
      have h : fibRef (m + 2) = fibRef m + fibRef (m + 1) := rfl
      omega

theorem fibCode_mono (n : ℕ) (h : 1 ≤ n) : fibCode n ≤ fibCode (n + 1) := by
  rw [fibCode_eq_ref n h, fibCode_eq_ref (n + 1) (by omega)]
  have h2 : n + 1 - 1 = (n - 1) + 1 := by omega
  rw [h2]
  exact fibRef_mono (n - 1)

/-- C5: For every `RetryPolicy` with `base_delay > 0` and the linear,
exponential, fibonacci and jitter backoff strategies, `calculate_delay` is
non-decreasing in the attempt number (for jitter, for every admissible random
draw in `[0, 0.1 · exponential delay]`) and its result never exceeds
`max_delay`, for all attempts `a ≥ 1`. -/
theorem C5_calculateDelay_mono_capped (p : RetryPolicy) (a : ℕ) (j j' : ℚ)
    (hbase : 0 < p.baseDelay) (ha : 1 ≤ a)
    (hs : p.backoff = .linear ∨ p.backoff = .exponential ∨
      p.backoff = .fibonacci ∨ p.backoff = .jitter)
    (hj : admissibleJitter p a j) (hj' : admissibleJitter p (a + 1) j') :
    calculateDelay p a j ≤ calculateDelay p (a + 1) j' ∧
    calculateDelay p a j ≤ p.maxDelay := by
  obtain ⟨hj0, hjub⟩ := hj
  obtain ⟨hj'0, _⟩ := hj'
  have hb : (0 : ℚ) ≤ p.baseDelay := le_of_lt hbase
  have hpow : (2 : ℚ) ^ (a - 1) ≤ 2 ^ (a + 1 - 1) := by
    apply pow_le_pow_right₀ (by norm_num)
    omega
  refine ⟨?_, min_le_right _ _⟩
  unfold calculateDelay
  apply min_le_min _ le_rfl
  rcases hs with h | h | h | h <;> rw [h]
  · -- linear
    have : (a : ℚ) ≤ (a + 1 : ℕ) := by exact_mod_cast Nat.le_succ a
    exact mul_le_mul_of_nonneg_left this hb
  · -- exponential
    exact mul_le_mul_of_nonneg_left hpow hb
  · -- fibonacci
    have : (fibCode a : ℚ) ≤ (fibCode (a + 1) : ℚ) := by
      exact_mod_cast fibCode_mono a ha
    exact mul_le_mul_of_nonneg_right this hb
  · -- jitter: worst draw at attempt a is below the best draw at attempt a+1
    show p.baseDelay * 2 ^ (a - 1) + j ≤ p.baseDelay * 2 ^ (a + 1 - 1) + j'
    have he : a + 1 - 1 = (a - 1) + 1 := by omega
    have hbp : (0 : ℚ) ≤ p.baseDelay * 2 ^ (a - 1) := by positivity
    have h2 : p.baseDelay * 2 ^ (a + 1 - 1) = p.baseDelay * 2 ^ (a - 1) * 2 := by
      rw [he, pow_succ]; ring
    rw [h2]
    nlinarith [hbp, hjub, hj'0]

/-- Witness for C5 at the linear strategy, `base_delay = 1`, `max_delay = 60`,
attempt 1, zero draws. -/
theorem C5_witness :
    calculateDelay ⟨3, .linear, 1, 60, defaultRetryOn⟩ 1 0
      ≤ calculateDelay ⟨3, .linear, 1, 60, defaultRetryOn⟩ 2 0 ∧
    calculateDelay ⟨3, .linear, 1, 60, defaultRetryOn⟩ 1 0
      ≤ (RetryPolicy.mk 3 .linear 1 60 defaultRetryOn).maxDelay :=
  C5_calculateDelay_mono_capped ⟨3, .linear, 1, 60, defaultRetryOn⟩ 1 0 0
    (by norm_num) le_rfl (Or.inl rfl) ⟨le_refl 0, by norm_num⟩
    ⟨le_refl 0, by norm_num⟩

/-! ### Case equations for `isCircuitOpen` and `callOnce` -/

theorem isCircuitOpen_notOpen (b : Breaker) (now : ℚ) (h : b.state ≠ .opened) :
    isCircuitOpen b now = (false, b) := by
  unfold isCircuitOpen; simp [h]

theorem isCircuitOpen_none (b : Breaker) (now : ℚ) (h : b.state = .opened)
    (hoa : b.openedAt = none) : isCircuitOpen b now = (true, b) := by
  unfold isCircuitOpen; simp [h, hoa]

theorem isCircuitOpen_recent (b : Breaker) (now t : ℚ) (h : b.state = .opened)
    (hoa : b.openedAt = some t) (hel : now - t ≤ b.timeout) :
    isCircuitOpen b now = (true, b) := by
  unfold isCircuitOpen; simp [h, hoa, not_lt.mpr hel]

theorem isCircuitOpen_elapsed (b : Breaker) (now t : ℚ) (h : b.state = .opened)
    (hoa : b.openedAt = some t) (hel : b.timeout < now - t) :
    isCircuitOpen b now = (false, { b with state := .halfOpen }) := by
  unfold isCircuitOpen; simp [h, hoa, hel]

theorem callOnce_eq (b : Breaker) (now : ℚ) (s : Bool) :
    callOnce b now s =
      if (isCircuitOpen b now).1 then (.fastFail, (isCircuitOpen b now).2)
      else if s then (.succeeded, recordSuccess (isCircuitOpen b now).2)
      else (.exhausted, tripBreaker (isCircuitOpen b now).2 now) := rfl

/-- The post-state of one call is the old state, a success reset, or a trip
(with the half-opened intermediate state only when the breaker was open). -/
theorem callOnce_post (b : Breaker) (now : ℚ) (s : Bool) :
    (callOnce b now s).2 = b ∨ (callOnce b now s).2 = recordSuccess b ∨
    (callOnce b now s).2 = tripBreaker b now ∨
    (b.state = .opened ∧
      (callOnce b now s).2 = tripBreaker { b with state := .halfOpen } now) := by
  rw [callOnce_eq]
  by_cases h1 : b.state = .opened
  · rcases hoa : b.openedAt with _ | t
    · rw [isCircuitOpen_none b now h1 hoa]; simp
    · by_cases hel : b.timeout < now - t
      · rw [isCircuitOpen_elapsed b now t h1 hoa hel]
        cases s
        · right; right; right
          refine ⟨h1, ?_⟩
          simp [hoa]
        · right; left
          show recordSuccess { b with state := .halfOpen } = recordSuccess b
          simp [recordSuccess]
      · rw [isCircuitOpen_recent b now t h1 hoa (not_lt.mp hel)]; simp
  · rw [isCircuitOpen_notOpen b now h1]
    cases s <;> simp

theorem callOnce_notOpen (b : Breaker) (now : ℚ) (s : Bool) (h : b.state ≠ .opened) :
    callOnce b now s =
      if s then (.succeeded, recordSuccess b) else (.exhausted, tripBreaker b now) := by
  rw [callOnce_eq, isCircuitOpen_notOpen b now h]
  simp

theorem callOnce_recent (b : Breaker) (now t : ℚ) (s : Bool) (h : b.state = .opened)
    (hoa : b.openedAt = some t) (hel : now - t ≤ b.timeout) :
    callOnce b now s = (.fastFail, b) := by
  rw [callOnce_eq, isCircuitOpen_recent b now t h hoa hel]
  simp

theorem callOnce_elapsed (b : Breaker) (now t : ℚ) (s : Bool) (h : b.state = .opened)
    (hoa : b.openedAt = some t) (hel : b.timeout < now - t) :
    callOnce b now s =
      if s then (.succeeded, recordSuccess { b with state := .halfOpen })
      else (.exhausted, tripBreaker { b with state := .halfOpen } now) := by
  rw [callOnce_eq, isCircuitOpen_elapsed b now t h hoa hel]
  simp

theorem reachable_inv (b : Breaker) (hr : Reachable b) :
    b.threshold = 5 ∧ b.timeout = 60 ∧
    (b.state ≠ .closed → 5 ≤ b.failures) ∧ b.state ≠ .halfOpen := by
  induction hr with
  | fresh => simp [freshBreaker]
  | step b now s _ ih =>
      obtain ⟨ht, hto, hf, hh⟩ := ih
      rcases callOnce_post b now s with h | h | h | ⟨hop, h⟩ <;> rw [h]
      · exact ⟨ht, hto, hf, hh⟩
      · simp [recordSuccess, ht, hto]
      · unfold tripBreaker
        split
        · refine ⟨ht, hto, fun _ => by simp; omega, by simp⟩
        · refine ⟨ht, hto, fun hs => ?_, hh⟩
          simp only at hs ⊢
          have := hf hs
          omega
      · have h5 : 5 ≤ b.failures := hf (by rw [hop]; simp)
        unfold tripBreaker
        split
        · exact ⟨ht, hto, fun _ => by simp; omega, by simp⟩
        · simp only at *
          omega

/-- C1 counterexample: the claim says that once the timeout (60 s) has
elapsed since `opened_at`, the next call transitions the breaker to half-open
and runs.  At exactly 60 elapsed seconds the code keeps the breaker open and
fast-fails (the source requires `elapsed > timeout`, strictly). -/
theorem C1_counterexample :
    exhaustFive.state = .opened ∧ exhaustFive.openedAt = some 0 ∧
    (callOnce exhaustFive 60 true).1 = .fastFail ∧
    (callOnce exhaustFive 60 true).2.state ≠ .halfOpen ∧
    (callOnce exhaustFive 60 true).2.state = .opened := by
  have e1 : (callOnce freshBreaker 0 false).2 = ⟨.closed, 1, none, 5, 60⟩ := by
    rw [callOnce_notOpen freshBreaker 0 false (by simp [freshBreaker])]
    simp [tripBreaker, freshBreaker]
  have e2 : (callOnce (⟨.closed, 1, none, 5, 60⟩ : Breaker) 0 false).2
      = ⟨.closed, 2, none, 5, 60⟩ := by
    rw [callOnce_notOpen _ 0 false (by simp)]
    simp [tripBreaker]
  have e3 : (callOnce (⟨.closed, 2, none, 5, 60⟩ : Breaker) 0 false).2
      = ⟨.closed, 3, none, 5, 60⟩ := by
    rw [callOnce_notOpen _ 0 false (by simp)]
    simp [tripBreaker]
  have e4 : (callOnce (⟨.closed, 3, none, 5, 60⟩ : Breaker) 0 false).2
      = ⟨.closed, 4, none, 5, 60⟩ := by
    rw [callOnce_notOpen _ 0 false (by simp)]
    simp [tripBreaker]
  have e5 : (callOnce (⟨.closed, 4, none, 5, 60⟩ : Breaker) 0 false).2
      = ⟨.opened, 5, some 0, 5, 60⟩ := by
    rw [callOnce_notOpen _ 0 false (by simp)]
    simp [tripBreaker]
  have hex : exhaustFive = ⟨.opened, 5, some 0, 5, 60⟩ := by
    unfold exhaustFive
    rw [e1, e2, e3, e4, e5]
  have hfinal : callOnce (⟨.opened, 5, some 0, 5, 60⟩ : Breaker) 60 true
      = (.fastFail, ⟨.opened, 5, some 0, 5, 60⟩) :=
    callOnce_recent _ 60 0 true rfl rfl (by norm_num)
  rw [hex, hfinal]
  refine ⟨rfl, rfl, rfl, by simp, rfl⟩

/-- C1 (amended): for every context, starting closed with failure count 0,
each `execute_with_retry` call that exhausts all retries increments the
failure count by one, and the breaker opens (recording `opened_at`) exactly
when that count reaches the threshold 5; while open and **at most** the
timeout (60 s) since `opened_at`, a call fast-fails without invoking the
operation; once **strictly more** than the timeout has elapsed, the next call
half-opens the breaker and runs: success closes it with failure count 0, and
exhaustion reopens it with a fresh `opened_at`. -/
theorem C1_circuit_breaker (b : Breaker) (now t : ℚ) (s : Bool)
    (hr : Reachable b) :
    (freshBreaker.state = .closed ∧ freshBreaker.failures = 0) ∧
    (b.state = .closed →
      (callOnce b now false).1 = .exhausted ∧
      (callOnce b now false).2.failures = b.failures + 1 ∧
      ((callOnce b now false).2.state = .opened ↔ 5 ≤ b.failures + 1) ∧
      (5 ≤ b.failures + 1 → (callOnce b now false).2.openedAt = some now)) ∧
    (b.state = .opened → b.openedAt = some t → now - t ≤ 60 →
      (callOnce b now s).1 = .fastFail ∧ (callOnce b now s).2 = b) ∧
    (b.state = .opened → b.openedAt = some t → 60 < now - t →
      ((callOnce b now true).1 = .succeeded ∧
        (callOnce b now true).2.state = .closed ∧
        (callOnce b now true).2.failures = 0) ∧
      ((callOnce b now false).1 = .exhausted ∧
        (callOnce b now false).2.state = .opened ∧
        (callOnce b now false).2.openedAt = some now)) := by
  obtain ⟨ht, hto, hf, hh⟩ := reachable_inv b hr
  refine ⟨⟨rfl, rfl⟩, ?_, ?_, ?_⟩
  · intro hc
    have hno : b.state ≠ .opened := by rw [hc]; intro hx; cases hx
    rw [callOnce_notOpen b now false hno]
    simp only [Bool.false_eq_true, if_false]
    unfold tripBreaker
    rw [ht]
    by_cases h5 : 5 ≤ b.failures + 1
    · simp [h5]
    · simp [h5, hc]
  · intro hop hoa hel
    rw [callOnce_recent b now t s hop hoa (by rw [hto]; exact hel)]
    simp
  · intro hop hoa hel
    have h5 : 5 ≤ b.failures := hf (by rw [hop]; intro hx; cases hx)
    constructor
    · rw [callOnce_elapsed b now t true hop hoa (by rw [hto]; exact hel)]
      simp [recordSuccess]
    · rw [callOnce_elapsed b now t false hop hoa (by rw [hto]; exact hel)]
      simp only [Bool.false_eq_true, if_false]
      unfold tripBreaker
      have : ({ b with state := BreakerState.halfOpen } : Breaker).threshold
          ≤ ({ b with state := BreakerState.halfOpen } : Breaker).failures + 1 := by
        simp [ht]; omega
      rw [if_pos this]
      simp

/-- Witness for C1 at the fresh breaker: one exhausted call at time 0
increments the failure count from 0 to 1 and leaves the breaker closed. -/
theorem C1_witness :
    (callOnce freshBreaker 0 false).1 = .exhausted ∧
    (callOnce freshBreaker 0 false).2.failures = freshBreaker.failures + 1 ∧
    ((callOnce freshBreaker 0 false).2.state = .opened ↔
      5 ≤ freshBreaker.failures + 1) :=
  have h := (C1_circuit_breaker freshBreaker 0 0 false Reachable.fresh).2.1 rfl
  ⟨h.1, h.2.1, h.2.2.1⟩


/-! ### Workflow engine claims -/

/-- C2: the claim asserts that for sequential *and* parallel workflows a
missing dependency id leads to a skipped step ("Dependencies not met") with
every other step terminal.  Sequential mode behaves exactly so, but in
parallel mode `_compute_dependency_levels` evaluates
`workflow.steps[step_id]` for the missing id and raises `KeyError`;
`execute_workflow` catches it, marks the workflow failed, and every step is
left pending (not terminal, not skipped). -/
theorem C2_missing_dependency_eval :
    computeLevels [mkStep "A" [], mkStep "B" ["C"]] = .error "C" ∧
    (executeWorkflow (fun _ => true)
      ⟨true, .pending, [mkStep "A" [], mkStep "B" ["C"]]⟩).status = .failed ∧
    ((executeWorkflow (fun _ => true)
      ⟨true, .pending, [mkStep "A" [], mkStep "B" ["C"]]⟩).steps.map
        (fun st => st.status)) = [.pending, .pending] ∧
    ((executeWorkflow (fun _ => true)
      ⟨false, .pending, [mkStep "A" [], mkStep "B" ["C"]]⟩).steps.map
        (fun st => (st.status, st.error)))
      = [(.success, none), (.skipped, some "Dependencies not met")] := by
  refine ⟨rfl, by decide, by decide, by decide⟩

/-- C3: the claim says the engine checks the workflow status before each
dispatch so that pause/cancel stop further steps.  No such check exists:
`_execute_sequential`/`_execute_parallel` never read `workflow.status`, so
execution is identical whatever `pause_workflow`/`cancel_workflow` set —
concretely, a workflow paused before any dispatch still executes every
step. -/
theorem C3_status_never_checked :
    (∀ (outcome : String → Bool) (w : Workflow),
      (executeWorkflow outcome (pauseWorkflow w)).steps
        = (executeWorkflow outcome w).steps ∧
      (executeWorkflow outcome (cancelWorkflow w)).steps
        = (executeWorkflow outcome w).steps) ∧
    ((executeWorkflow (fun _ => true)
      (pauseWorkflow ⟨false, .running, [mkStep "A" [], mkStep "B" ["A"]]⟩)).steps.map
        (fun st => st.status)) = [.success, .success] ∧
    ((executeWorkflow (fun _ => true)
      (cancelWorkflow ⟨false, .running, [mkStep "A" [], mkStep "B" ["A"]]⟩)).steps.map
        (fun st => st.status)) = [.success, .success] := by
  refine ⟨fun outcome w => ⟨rfl, rfl⟩, by decide, by decide⟩

/-- C4: sequential workflow {A (no deps), B (depends_on [A])} where every
attempt of A fails: A ends failed, and B is still attempted — B's final
status is decided solely by B's own execution outcome `ob`. -/
theorem C4_failed_dependency_unblocks (ob : Bool) :
    ((executeWorkflow (fun id => if id = "B" then ob else false)
        ⟨false, .pending, [mkStep "A" [], mkStep "B" ["A"]]⟩).steps.map
      (fun st => st.status)) = [.failed, if ob then .success else .failed] ∧
    ((executeWorkflow (fun id => if id = "B" then ob else false)
        ⟨false, .pending, [mkStep "A" [], mkStep "B" ["A"]]⟩).steps.map
      (fun st => st.stepId)) = ["A", "B"] := by
  cases ob <;> exact ⟨by decide, by decide⟩

theorem finalStatusOf_spec (steps : List WStep) :
    (finalStatusOf steps = .success ∨ finalStatusOf steps = .failed) ∧
    (finalStatusOf steps = .failed ↔
      steps.any (fun st => st.status = .failed) = true) := by
  unfold finalStatusOf
  by_cases h1 : steps.all (fun st => st.status = .success) = true
  · rw [if_pos h1]
    have h2 : steps.any (fun st => st.status = .failed) = false := by
      rw [List.any_eq_false]
      intro st hst
      have h3 := List.all_eq_true.mp h1 st hst
      simp only [decide_eq_true_eq] at h3 ⊢
      rw [h3]
      intro hx; cases hx
    simp [h2]
  · rw [if_neg h1]
    by_cases h2 : steps.any (fun st => st.status = .failed) = true
    · simp [h2]
    · simp only [h2, if_false]
      simp at h2
      simp [h2]

/-- C10: whenever `execute_workflow` returns, the workflow status is exactly
success or failed: failed iff some step of the result failed or the internal
exception path was taken, success otherwise — and the result is independent
of any paused/cancelled status set while the run was in progress (the loops
never read it, and the final assignment overwrites it). -/
theorem C10_final_status (outcome : String → Bool) (w : Workflow)
    (s : WorkflowStatus) :
    ((executeWorkflow outcome w).status = .success ∨
      (executeWorkflow outcome w).status = .failed) ∧
    (executeWorkflow outcome { w with status := s }).status
      = (executeWorkflow outcome w).status ∧
    (executeWorkflow outcome { w with status := s }).steps
      = (executeWorkflow outcome w).steps ∧
    (w.parallel = false →
      ((executeWorkflow outcome w).status = .failed ↔
        (executeWorkflow outcome w).steps.any (fun st => st.status = .failed) = true)) ∧
    (w.parallel = true → ∀ e, execParallel outcome w.steps = .error e →
      (executeWorkflow outcome w).status = .failed) ∧
    (w.parallel = true → ∀ steps2, execParallel outcome w.steps = .ok steps2 →
      ((executeWorkflow outcome w).status = .failed ↔
        steps2.any (fun st => st.status = .failed) = true)) := by
  by_cases hp : w.parallel = true
  · rcases hepar : execParallel outcome w.steps with e | steps2
    · have hw : executeWorkflow outcome w = { w with status := .failed } := by
        unfold executeWorkflow
        rw [if_pos hp, hepar]
      have hw2 : executeWorkflow outcome { w with status := s }
          = { w with status := .failed } := by
        unfold executeWorkflow
        simp only [hp, if_pos, hepar]
      rw [hw, hw2]
      refine ⟨Or.inr rfl, rfl, rfl, fun hf => ?_, fun _ _ _ => rfl, fun _ steps2 hok => ?_⟩
      · rw [hp] at hf; cases hf
      · cases hok
    · have hw : executeWorkflow outcome w
          = { w with steps := steps2, status := finalStatusOf steps2 } := by
        unfold executeWorkflow
        rw [if_pos hp, hepar]
      have hw2 : executeWorkflow outcome { w with status := s }
          = { w with steps := steps2, status := finalStatusOf steps2 } := by
        unfold executeWorkflow
        simp only [hp, if_pos, hepar]
      rw [hw, hw2]
      obtain ⟨ha, hb⟩ := finalStatusOf_spec steps2
      refine ⟨ha, rfl, rfl, fun hf => ?_, fun _ e he => ?_, fun _ steps3 hok => ?_⟩
      · rw [hp] at hf; cases hf
      · cases he
      · cases hok
        exact hb
  · have hp2 : w.parallel = false := by
      cases hx : w.parallel
      · rfl
      · exact absurd hx hp
    have hw : executeWorkflow outcome w
        = { w with steps := execSequential outcome w.steps, status :=
              finalStatusOf (execSequential outcome w.steps) } := by
      unfold executeWorkflow
      rw [hp2]
      rfl
    have hw2 : executeWorkflow outcome { w with status := s }
        = { w with steps := execSequential outcome w.steps, status :=
              finalStatusOf (execSequential outcome w.steps) } := by
      unfold executeWorkflow
      rw [show ({ w with status := s } : Workflow).parallel = false from hp2]
      rfl
    rw [hw, hw2]
    obtain ⟨ha, hb⟩ := finalStatusOf_spec (execSequential outcome w.steps)
    refine ⟨ha, rfl, rfl, fun _ => hb, fun hf => ?_, fun hf => ?_⟩
    · rw [hp2] at hf; cases hf
    · rw [hp2] at hf; cases hf

/-- Witness for C10: a sequential one-step workflow already marked paused
still finishes with status success. -/
theorem C10_witness :
    (executeWorkflow (fun _ => true) ⟨false, .paused, [mkStep "A" []]⟩).status
        = .success ∨
    (executeWorkflow (fun _ => true) ⟨false, .paused, [mkStep "A" []]⟩).status
        = .failed :=
  (C10_final_status (fun _ => true) ⟨false, .paused, [mkStep "A" []]⟩ .cancelled).1

/-! ### C6: step execution vs execute_with_retry -/

theorem stepLoop_align (att : ℕ → Bool) (cat : ℕ → ErrorCategory) (rc : ℕ)
    (hrc : rc ≤ 7) (hcat : ∀ a, cat a ∈ defaultRetryOn) :
    ∀ r i, i + r = rc → 1 ≤ r →
      stepLoopCode (fun k => att (k + 1)) rc r i
        = ((if (retryLoop att cat (stepPolicy rc) r (i + 1)).1 then
              TaskStatus.success else .failed),
           (retryLoop att cat (stepPolicy rc) r (i + 1)).2.1,
           (retryLoop att cat (stepPolicy rc) r (i + 1)).2.2) := by
  intro r
  induction r with
  | zero => intro i hsum h1; omega
  | succ r ih =>
      intro i hsum _
      by_cases hatt : att (i + 1)
      · simp [stepLoopCode, retryLoop, hatt]
      · have hcat2 : cat (i + 1) ∈ (stepPolicy rc).retryOn := hcat (i + 1)
        by_cases hr : 1 ≤ r
        · have hlt : i < rc - 1 := by omega
          have hmax : ¬ ((stepPolicy rc).maxAttempts ≤ i + 1) := by
            simp only [stepPolicy]
            omega
          have hd : calculateDelay (stepPolicy rc) (i + 1) 0 = (2 : ℚ) ^ i := by
            unfold calculateDelay stepPolicy
            simp only
            have h60 : (2 : ℚ) ^ i ≤ 60 := by
              calc (2 : ℚ) ^ i ≤ 2 ^ 5 := by
                    apply pow_le_pow_right₀ (by norm_num)
                    omega
                _ ≤ 60 := by norm_num
            rw [one_mul, Nat.add_sub_cancel]
            exact min_eq_left h60
          have hrec := ih (i + 1) (by omega) hr
          simp only [stepLoopCode, retryLoop, hatt, hcat2, hlt, hmax, hd,
            if_true, if_false, not_true, not_false_iff, if_pos, if_neg,
            Bool.false_eq_true, ite_true, ite_false]
          simp [hrec, hatt, hcat2, hmax, hlt, hd]
        · have hr0 : r = 0 := by omega
          subst hr0
          have hlt : ¬ (i < rc - 1) := by omega
          have hmax : (stepPolicy rc).maxAttempts ≤ i + 1 := by
            simp only [stepPolicy]
            omega
          simp [stepLoopCode, retryLoop, hatt, hcat2, hlt, hmax]

/-- C6 counterexample: `_execute_step` is not equivalent to
`execute_with_retry` under the claimed policy.  With a non-retryable error
category the recovery loop stops after 1 attempt where the code runs 3; the
recovery delays are capped at `max_delay = 60` where the code's are not; and
with an open breaker the recovery call invokes nothing where the code still
runs every attempt. -/
theorem C6_counterexample :
    (stepRunCode (fun _ => false) 3).2.1 = 3 ∧
    (retryRun (fun _ => false) (fun _ => .validation) (stepPolicy 3)).2.1 = 1 ∧
    (3 : ℕ) ≠ 1 ∧
    (stepRunCode (fun _ => false) 8).2.2 = [1, 2, 4, 8, 16, 32, 64] ∧
    (retryRun (fun _ => false) (fun _ => .network) (stepPolicy 8)).2.2
      = [1, 2, 4, 8, 16, 32, 60] ∧
    executeWithRetryAttempts (fun _ => false) (fun _ => .network) (stepPolicy 3)
      ⟨.opened, 5, some 0, 5, 60⟩ 10 = 0 ∧
    (stepRunCode (fun _ => false) 3).2.1 ≠ 0 := by
  refine ⟨by decide, by decide, by decide, by decide, ?_, ?_, by decide⟩
  · simp [retryRun, retryLoop, stepPolicy, calculateDelay, defaultRetryOn]
    norm_num
  · simp [executeWithRetryAttempts, isCircuitOpen]
    norm_num

/-- C6 (amended): when every raised error has a retryable category, the
breaker is not open, and `retry_count ≤ 7` (so no delay reaches the 60 s
cap), `_execute_step` makes exactly the attempts `execute_with_retry` under
policy {max_attempts: retry_count, backoff: exponential, base_delay: 1}
would make, sleeping the same delays `2^(a-1)`, and succeeds iff it does.
Beyond that the behaviours diverge: `_execute_step` never caps its delay,
retries every error category, and neither consults nor updates the circuit
breaker. -/
theorem C6_step_vs_retry (att : ℕ → Bool) (cat : ℕ → ErrorCategory) (rc : ℕ)
    (h1 : 1 ≤ rc) (h7 : rc ≤ 7) (hcat : ∀ a, cat a ∈ defaultRetryOn) :
    stepRunCode (fun i => att (i + 1)) rc
      = ((if (retryRun att cat (stepPolicy rc)).1 then TaskStatus.success
          else .failed),
         (retryRun att cat (stepPolicy rc)).2.1,
         (retryRun att cat (stepPolicy rc)).2.2) := by
  unfold stepRunCode retryRun
  have h := stepLoop_align att cat rc h7 hcat rc 0 (by omega) h1
  simpa [stepPolicy] using h

/-- Witness for C6 (amended) at `retry_count = 3`, an always-failing
operation with network errors: 3 attempts and delays 1 s, 2 s on both
sides. -/
theorem C6_witness :
    stepRunCode (fun i => (fun _ : ℕ => false) (i + 1)) 3
      = ((if (retryRun (fun _ => false) (fun _ => .network) (stepPolicy 3)).1
          then TaskStatus.success else .failed),
         (retryRun (fun _ => false) (fun _ => .network) (stepPolicy 3)).2.1,
         (retryRun (fun _ => false) (fun _ => .network) (stepPolicy 3)).2.2) :=
  C6_step_vs_retry (fun _ => false) (fun _ => .network) 3 (by norm_num)
    (by norm_num) (fun _ => show ErrorCategory.network ∈ defaultRetryOn by decide)

/-! ### C7: action execution isolation -/

theorem mem_insertByPriority (r x : RuleM) (l : List RuleM) :
    x ∈ insertByPriority r l ↔ x = r ∨ x ∈ l := by
  induction l with
  | nil => simp [insertByPriority]
  | cons h t ih =>
      unfold insertByPriority
      by_cases hc : h.priority < r.priority
      · simp only [hc, if_true, List.mem_cons, ih]
        tauto
      · simp only [hc, if_false, List.mem_cons]
        try tauto

theorem mem_sortByPriority (x : RuleM) (l : List RuleM) :
    x ∈ sortByPriority l ↔ x ∈ l := by
  induction l with
  | nil => simp [sortByPriority]
  | cons h t ih =>
      unfold sortByPriority
      rw [mem_insertByPriority, ih, List.mem_cons]

theorem invokedActions_all (fails : String → Bool) (actions : List String)
    (h : ∀ a ∈ actions, fails a = false) :
    invokedActions fails actions = actions := by
  induction actions with
  | nil => rfl
  | cons a rest ih =>
      have h1 : fails a = false := h a (List.mem_cons_self a rest)
      have h2 := ih (fun b hb => h b (List.mem_cons_of_mem a hb))
      unfold invokedActions
      rw [h1]
      simp [h2]

theorem invokedActions_firstFail (fails : String → Bool) (a : String)
    (pre post : List String) (hpre : ∀ b ∈ pre, fails b = false)
    (ha : fails a = true) :
    invokedActions fails (pre ++ a :: post) = pre ++ [a] := by
  induction pre with
  | nil =>
      simp only [List.nil_append]
      unfold invokedActions
      rw [ha]
      simp
  | cons b rest ih =>
      have hb : fails b = false := hpre b (List.mem_cons_self b rest)
      show invokedActions fails (b :: (rest ++ a :: post)) = b :: (rest ++ [a])
      unfold invokedActions
      rw [hb]
      simp only [Bool.false_eq_true, if_false]
      rw [ih (fun c hc => hpre c (List.mem_cons_of_mem b hc))]

/-- C7 counterexample: a rule with actions [a1, a2] whose first action
raises: only a1 is invoked — the sibling a2 is skipped because the
`try`/`except` wraps the whole action loop — while the following rule's
actions all run. -/
theorem C7_counterexample :
    evaluateAllRules
        (fun rid a => rid = "r1" && a = "a1")
        [⟨"r1", true, 1, true, ["a1", "a2"]⟩, ⟨"r2", true, 2, true, ["b1", "b2"]⟩]
      = [("r1", ["a1"]), ("r2", ["b1", "b2"])] ∧
    (["a1"] : List String) ≠ ["a1", "a2"] := by
  exact ⟨by decide, by decide⟩

/-- C7 (amended): for every fully-satisfied enabled rule evaluated by
`evaluate_all_rules`, the actions invoked are exactly the configured actions
up to and including the first one whose executor raises (all of them when
none raises); an exception in one action skips that rule's remaining sibling
actions, but is caught per rule, so every other rule's evaluation and action
execution still happens (each rule's entry appears with its own invoked
actions, for every failure oracle). -/
theorem C7_action_isolation (fails : String → String → Bool)
    (rules : List RuleM) (r : RuleM) (hmem : r ∈ rules)
    (hen : r.enabled = true) (hsat : r.satisfied = true) :
    (r.ruleId, invokedActions (fails r.ruleId) r.actions)
        ∈ evaluateAllRules fails rules ∧
    ((∀ a ∈ r.actions, fails r.ruleId a = false) →
      invokedActions (fails r.ruleId) r.actions = r.actions) ∧
    (∀ (pre : List String) (a : String) (post : List String),
      r.actions = pre ++ a :: post →
      (∀ b ∈ pre, fails r.ruleId b = false) → fails r.ruleId a = true →
      invokedActions (fails r.ruleId) r.actions = pre ++ [a]) := by
  refine ⟨?_, invokedActions_all (fails r.ruleId) r.actions, ?_⟩
  · apply List.mem_filterMap.mpr
    refine ⟨r, ?_, ?_⟩
    · rw [mem_sortByPriority]
      exact List.mem_filter.mpr ⟨hmem, hen⟩
    · rw [hsat]
      simp
  · intro pre a post heq hpre ha
    rw [heq]
    exact invokedActions_firstFail (fails r.ruleId) a pre post hpre ha

/-- Witness for C7 at a single satisfied rule with one non-failing action. -/
theorem C7_witness :
    ("r1", invokedActions ((fun _ _ => false) "r1") ["a1"])
      ∈ evaluateAllRules (fun _ _ => false) [⟨"r1", true, 1, true, ["a1"]⟩] :=
  (C7_action_isolation (fun _ _ => false) [⟨"r1", true, 1, true, ["a1"]⟩]
    ⟨"r1", true, 1, true, ["a1"]⟩ (List.mem_singleton.mpr rfl) rfl rfl).1

/-! ### C8: task queue priority order -/

theorem lexLe_refl (x : QEntry) : lexLe x x := Or.inr ⟨rfl, le_rfl⟩

theorem lexLe_trans (x y z : QEntry) (h1 : lexLe x y) (h2 : lexLe y z) :
    lexLe x z := by
  rcases h1 with h1 | ⟨h1a, h1b⟩ <;> rcases h2 with h2 | ⟨h2a, h2b⟩
  · exact Or.inl (h1.trans h2)
  · exact Or.inl (h2a ▸ h1)
  · exact Or.inl (h1a ▸ h2)
  · exact Or.inr ⟨h1a.trans h2a, h1b.trans h2b⟩

theorem qbetter_le_left (x y : QEntry) : lexLe (qbetter x y) x := by
  unfold qbetter
  split
  · rename_i h
    rcases h with h | ⟨ha, hb⟩
    · exact Or.inl h
    · exact Or.inr ⟨ha, le_of_lt hb⟩
  · exact lexLe_refl x

theorem qbetter_le_right (x y : QEntry) : lexLe (qbetter x y) y := by
  unfold qbetter
  split
  · exact lexLe_refl y
  · rename_i h
    push_neg at h
    obtain ⟨h1, h2⟩ := h
    rcases lt_or_eq_of_le h1 with h3 | h3
    · exact Or.inl h3
    · exact Or.inr ⟨h3, h2 h3.symm⟩

theorem qbetter_cases (x y : QEntry) : qbetter x y = x ∨ qbetter x y = y := by
  unfold qbetter
  split
  · exact Or.inr rfl
  · exact Or.inl rfl

theorem foldl_qbetter_mem (x : QEntry) (xs : List QEntry) :
    xs.foldl qbetter x ∈ x :: xs := by
  induction xs generalizing x with
  | nil => exact List.mem_singleton.mpr rfl
  | cons h t ih =>
      show List.foldl qbetter (qbetter x h) t ∈ x :: h :: t
      have hm := ih (qbetter x h)
      rcases List.mem_cons.mp hm with hm | hm
      · rcases qbetter_cases x h with hc | hc
        · rw [hm, hc]; exact List.mem_cons_self _ _
        · rw [hm, hc]
          exact List.mem_cons_of_mem _ (List.mem_cons_self _ _)
      · exact List.mem_cons_of_mem _ (List.mem_cons_of_mem _ hm)

theorem foldl_qbetter_le (x : QEntry) (xs : List QEntry) :
    ∀ y ∈ x :: xs, lexLe (xs.foldl qbetter x) y := by
  induction xs generalizing x with
  | nil =>
      intro y hy
      rw [List.mem_singleton.mp hy]
      exact lexLe_refl x
  | cons h t ih =>
      intro y hy
      have hxh : lexLe (List.foldl qbetter (qbetter x h) t) (qbetter x h) :=
        ih (qbetter x h) (qbetter x h) (List.mem_cons_self _ _)
      rcases List.mem_cons.mp hy with hy | hy
      · rw [hy]
        exact lexLe_trans _ _ _ hxh (qbetter_le_left x h)
      rcases List.mem_cons.mp hy with hy | hy
      · rw [hy]
        exact lexLe_trans _ _ _ hxh (qbetter_le_right x h)
      · exact ih (qbetter x h) y (List.mem_cons_of_mem _ hy)

/-- C8: `pop` on an empty queue returns `None`; on a non-empty queue it
returns an entry with the numerically lowest priority, and among entries of
that priority the lowest counter.  `push` stores the fresh counter, which is
strictly larger than every counter already queued (so counter order is push
order, giving FIFO among equal priorities), and both operations preserve the
counter bound. -/
theorem C8_taskQueue_order (q : TaskQueueState) (p : ℤ) (t : String) :
    (qpop emptyQueue).1 = none ∧
    (q.queue ≠ [] → ∃ e, (qpop q).1 = some e ∧ e ∈ q.queue ∧
      (∀ y ∈ q.queue, e.1 ≤ y.1) ∧
      (∀ y ∈ q.queue, y.1 = e.1 → e.2.1 ≤ y.2.1)) ∧
    ((∀ x ∈ q.queue, x.2.1 < q.counter) →
      (qpush q p t).queue = (p, q.counter, t) :: q.queue ∧
      (∀ x ∈ q.queue, x.2.1 < (p, q.counter, t).2.1) ∧
      (∀ x ∈ (qpush q p t).queue, x.2.1 < (qpush q p t).counter) ∧
      (∀ x ∈ (qpop q).2.queue, x.2.1 < (qpop q).2.counter)) := by
  refine ⟨rfl, ?_, ?_⟩
  · intro hne
    rcases hq : q.queue with _ | ⟨x, xs⟩
    · exact absurd hq hne
    · refine ⟨xs.foldl qbetter x, ?_, ?_, ?_, ?_⟩
      · unfold qpop qminEntry
        rw [hq]
      · exact foldl_qbetter_mem x xs
      · intro y hy
        rcases foldl_qbetter_le x xs y hy with h | ⟨h, _⟩
        · exact le_of_lt h
        · exact le_of_eq h
      · intro y hy hpy
        rcases foldl_qbetter_le x xs y hy with h | ⟨_, h⟩
        · omega
        · exact h
  · intro hinv
    refine ⟨rfl, hinv, ?_, ?_⟩
    · intro x hx
      rcases List.mem_cons.mp hx with hx | hx
      · rw [hx]
        exact Nat.lt_succ_self _
      · exact Nat.lt_succ_of_lt (hinv x hx)
    · intro x hx
      unfold qpop at hx ⊢
      revert hx
      rcases hq : qminEntry q.queue with _ | e
      · intro hx
        exact hinv x hx
      · intro hx
        exact hinv x (List.erase_subset _ _ hx)

/-- Witness for C8: from the queue holding (5,#0), (3,#1), (3,#2), `pop`
returns the entry with priority 3 and the smaller counter 1. -/
theorem C8_witness :
    ∃ e, (qpop ⟨[((5 : ℤ), 0, "t1"), (3, 1, "t2"), (3, 2, "t3")], 3⟩).1 = some e ∧
      e ∈ [((5 : ℤ), 0, "t1"), (3, 1, "t2"), (3, 2, "t3")] ∧
      (∀ y ∈ [((5 : ℤ), 0, "t1"), (3, 1, "t2"), (3, 2, "t3")], e.1 ≤ y.1) ∧
      (∀ y ∈ [((5 : ℤ), 0, "t1"), (3, 1, "t2"), (3, 2, "t3")],
        y.1 = e.1 → e.2.1 ≤ y.2.1) :=
  (C8_taskQueue_order ⟨[((5 : ℤ), 0, "t1"), (3, 1, "t2"), (3, 2, "t3")], 3⟩
    0 "x").2.1 (by decide)

/-! ### C9: agent selection -/

theorem keywordRoute_matched (o : Orch) (task : String) :
    keywordRoute o task
      = (matchedCategory task).map (fun c =>
          if o.agents.contains (categoryAgent c) then some (categoryAgent c)
          else none) := by
  unfold keywordRoute matchedCategory
  by_cases h1 : (kwEmail.any (fun w => strContains task w)) = true
  · simp [h1, categoryAgent]
  · by_cases h2 : (kwWeb.any (fun w => strContains task w)) = true
    · simp [h1, h2, categoryAgent]
    · by_cases h3 : (kwSystem.any (fun w => strContains task w)) = true
      · simp [h1, h2, h3, categoryAgent]
      · simp [h1, h2, h3]

theorem foldlMinLoad_mem (x : String × ℕ) (xs : List (String × ℕ)) :
    xs.foldl (fun best y => if y.2 < best.2 then y else best) x ∈ x :: xs := by
  induction xs generalizing x with
  | nil => exact List.mem_singleton.mpr rfl
  | cons h t ih =>
      show List.foldl (fun best y => if y.2 < best.2 then y else best)
        (if h.2 < x.2 then h else x) t ∈ x :: h :: t
      have hm := ih (if h.2 < x.2 then h else x)
      rcases List.mem_cons.mp hm with hm | hm
      · rw [hm]
        by_cases hc : h.2 < x.2
        · rw [if_pos hc]
          exact List.mem_cons_of_mem _ (List.mem_cons_self _ _)
        · rw [if_neg hc]
          exact List.mem_cons_self _ _
      · exact List.mem_cons_of_mem _ (List.mem_cons_of_mem _ hm)

theorem foldlMinLoad_le (x : String × ℕ) (xs : List (String × ℕ)) :
    ∀ y ∈ x :: xs,
      (xs.foldl (fun best y => if y.2 < best.2 then y else best) x).2 ≤ y.2 := by
  induction xs generalizing x with
  | nil =>
      intro y hy
      rw [List.mem_singleton.mp hy]
      exact le_rfl
  | cons h t ih =>
      intro y hy
      show (List.foldl (fun best y => if y.2 < best.2 then y else best)
        (if h.2 < x.2 then h else x) t).2 ≤ y.2
      have hb1 : (if h.2 < x.2 then h else x).2 ≤ x.2 := by
        by_cases hc : h.2 < x.2
        · rw [if_pos hc]; omega
        · rw [if_neg hc]
      have hb2 : (if h.2 < x.2 then h else x).2 ≤ h.2 := by
        by_cases hc : h.2 < x.2
        · rw [if_pos hc]
        · rw [if_neg hc]; omega
      have hhead := ih (if h.2 < x.2 then h else x) _ (List.mem_cons_self _ _)
      rcases List.mem_cons.mp hy with hy | hy
      · rw [hy]
        exact le_trans hhead hb1
      rcases List.mem_cons.mp hy with hy | hy
      · rw [hy]
        exact le_trans hhead hb2
      · exact ih (if h.2 < x.2 then h else x) y (List.mem_cons_of_mem _ hy)

theorem selectBestAgent_pref (o : Orch) (task : String) (p : String) :
    selectBestAgent o task (some p)
      = (if o.agents.contains p then some p
         else selectBestAgent o task none) := by
  unfold selectBestAgent
  by_cases h : o.agents.contains p = true <;> simp [h]

theorem selectNone_rest (o : Orch) (task : String) :
    selectBestAgent o task none
      = (match matchedCategory task with
         | some c =>
             if o.agents.contains (categoryAgent c) then some (categoryAgent c)
             else none
         | none =>
             if o.agents.isEmpty then none
             else
               match leastLoaded o with
               | some n => some n
               | none => o.agents.head?) := by
  unfold selectBestAgent
  rw [keywordRoute_matched]
  rcases matchedCategory task with _ | c <;> rfl

theorem selectNone_eq_none_iff (o : Orch) (task : String) :
    selectBestAgent o task none = none ↔
      (o.agents = [] ∨ ∃ c, matchedCategory task = some c ∧
        o.agents.contains (categoryAgent c) = false) := by
  rw [selectNone_rest]
  rcases hcm : matchedCategory task with _ | c
  · show (if o.agents.isEmpty = true then none
        else match leastLoaded o with
             | some n => some n
             | none => o.agents.head?) = none ↔ _
    rcases hag : o.agents with _ | ⟨a, as⟩
    · constructor
      · intro _
        exact Or.inl rfl
      · intro _
        rfl
    · have hie : (a :: as).isEmpty = false := rfl
      rw [hie]
      simp only [Bool.false_eq_true, if_false]
      constructor
      · intro hres
        rcases hl : leastLoaded o with _ | n <;> rw [hl] at hres <;>
          simp at hres
      · rintro (h | ⟨c2, hc2, _⟩)
        · cases h
        · cases hc2
  · show (if o.agents.contains (categoryAgent c) = true
        then some (categoryAgent c) else none) = none ↔ _
    by_cases hcc : o.agents.contains (categoryAgent c) = true
    · rw [if_pos hcc]
      constructor
      · intro h
        cases h
      · rintro (h | ⟨c2, hc2, hcc2⟩)
        · rw [h] at hcc
          cases hcc
        · cases hc2
          rw [hcc] at hcc2
          cases hcc2
    · have hcf : o.agents.contains (categoryAgent c) = false := by
        cases hb : o.agents.contains (categoryAgent c)
        · rfl
        · exact absurd hb hcc
      rw [hcf]
      simp only [Bool.false_eq_true, if_false]
      constructor
      · intro _
        exact Or.inr ⟨c, rfl, hcf⟩
      · intro _
        trivial

/-- C9 counterexample: the claim says `None` is returned only when no
executor is registered, and that after a keyword match resolution proceeds to
the least-loaded/first-registered fallbacks.  With only a "system" agent
registered and an email-keyword task, the code returns `None` although an
executor is registered. -/
theorem C9_counterexample :
    selectBestAgent ⟨["system"], []⟩ "send email to bob" none = none ∧
    (Orch.mk ["system"] []).agents ≠ [] := by
  exact ⟨by decide, by decide⟩

/-- C9 (amended): `select_best_agent` resolves in this order: (1) a
registered preferred agent from the context; (2) otherwise, if the task text
keyword-matches a category, the category's named agent when registered and
`None` when not (resolution stops here either way, never falling through);
(3) otherwise the least-loaded among registered executors that have a stats
entry (first in stats order on ties); (4) otherwise the first registered
executor; `None` is returned exactly when no executor is registered or a
keyword-matched category's agent is unregistered (and no registered
preferred agent overrides). -/
theorem C9_agent_selection (o : Orch) (task : String)
    (preferred : Option String) :
    (∀ p, preferred = some p → o.agents.contains p = true →
      selectBestAgent o task preferred = some p) ∧
    ((∀ p, preferred = some p → o.agents.contains p = false) →
      ∀ c, matchedCategory task = some c →
        selectBestAgent o task preferred
          = (if o.agents.contains (categoryAgent c) then some (categoryAgent c)
             else none)) ∧
    ((∀ p, preferred = some p → o.agents.contains p = false) →
      matchedCategory task = none →
      ∀ x xs, o.stats.filter (fun e => o.agents.contains e.1) = x :: xs →
        ∃ e ∈ x :: xs, selectBestAgent o task preferred = some e.1 ∧
          ∀ y ∈ x :: xs, e.2 ≤ y.2) ∧
    ((∀ p, preferred = some p → o.agents.contains p = false) →
      matchedCategory task = none →
      o.stats.filter (fun e => o.agents.contains e.1) = [] →
      selectBestAgent o task preferred = o.agents.head?) ∧
    (selectBestAgent o task preferred = none ↔
      ((∀ p, preferred = some p → o.agents.contains p = false) ∧
        (o.agents = [] ∨ ∃ c, matchedCategory task = some c ∧
          o.agents.contains (categoryAgent c) = false))) := by
  have hpref : (∀ p, preferred = some p → o.agents.contains p = false) →
      selectBestAgent o task preferred = selectBestAgent o task none := by
    intro h
    rcases preferred with _ | p
    · rfl
    · rw [selectBestAgent_pref, h p rfl]
      simp
  refine ⟨?_, ?_, ?_, ?_, ?_⟩
  · intro p hp hcp
    rw [hp, selectBestAgent_pref, hcp]
    simp
  · intro h c hc
    rw [hpref h, selectNone_rest, hc]
  · intro h hnone x xs hfil
    rw [hpref h, selectNone_rest, hnone]
    have hmem := foldlMinLoad_mem x xs
    have hle := foldlMinLoad_le x xs
    have hne : o.agents.isEmpty = false := by
      have hx : x ∈ o.stats.filter (fun e => o.agents.contains e.1) := by
        rw [hfil]
        exact List.mem_cons_self _ _
      have hmm := (List.mem_filter.mp hx).2
      rcases hagents : o.agents with _ | ⟨a, as⟩
      · rw [hagents] at hmm
        cases hmm
      · rfl
    refine ⟨xs.foldl (fun best y => if y.2 < best.2 then y else best) x,
      hmem, ?_, hle⟩
    show (if o.agents.isEmpty = true then none
        else match leastLoaded o with
             | some n => some n
             | none => o.agents.head?) = _
    rw [hne]
    simp only [Bool.false_eq_true, if_false]
    unfold leastLoaded
    rw [hfil]
  · intro h hnone hfil
    rw [hpref h, selectNone_rest, hnone]
    show (if o.agents.isEmpty = true then none
        else match leastLoaded o with
             | some n => some n
             | none => o.agents.head?) = _
    unfold leastLoaded
    rw [hfil]
    rcases hagents : o.agents with _ | ⟨a, as⟩
    · rfl
    · rfl
  · constructor
    · intro hres
      have hp : ∀ p, preferred = some p → o.agents.contains p = false := by
        intro p hp2
        subst hp2
        rw [selectBestAgent_pref] at hres
        cases hb : o.agents.contains p with
        | false => rfl
        | true =>
            rw [hb] at hres
            simp at hres
      refine ⟨hp, (selectNone_eq_none_iff o task).mp ?_⟩
      rw [← hpref hp]
      exact hres
    · rintro ⟨hp, hrest⟩
      rw [hpref hp]
      exact (selectNone_eq_none_iff o task).mpr hrest

/-- Witness for C9: a registered preferred agent wins. -/
theorem C9_witness :
    selectBestAgent ⟨["web"], []⟩ "hello" (some "web") = some "web" :=
  (C9_agent_selection ⟨["web"], []⟩ "hello" (some "web")).1 "web" rfl (by decide)

end SIGMA
